import Mathlib

/-!
# Verification of the lp-longmao content pipeline

Shallow embedding of the functions of this repository that the checked
claims are about:

* `merge_dedupe`, `classify_text`, `parse_likes`, `smart_summary`
  (from `gold-dashboard/generate_intel.py`), and
* `Store.effective_discount` / `Store.simulated_final_price`
  (from `generate_dashboard.py`).

Modelling conventions:

* Python `str` values are modelled as `List Char` (Unicode code points —
  Python strings are sequences of code points, so `s[:n]` is `List.take n`,
  `len` is `List.length`, `c in s` is substring search on code points).
* Python `datetime` values (all of which are CST-aware in this program) are
  modelled as `Nat` via the order isomorphism that sends
  `datetime.min.replace(tzinfo=CST)` — the smallest such value, used by
  `merge_dedupe` as the sort sentinel for missing timestamps — to `0`.
* Python `float` is modelled by exact rational arithmetic (`ℚ`) plus the
  special values `inf`/`-inf`/`nan`; binary64 rounding is abstracted away.
  None of the proved statements depend on rounding at the concrete inputs
  they mention.
* Fallible code is modelled with `Option`/`Except`: an uncaught Python
  exception is an `Except.error`.
-/

set_option maxRecDepth 8192

namespace LpLongmao

/-! ## Shared string helpers (Python `str` primitives) -/

/-- Python whitespace for `str.strip()` / regex `\s` (ASCII subset; the
program's CJK/ASCII data contains no other Unicode whitespace). -/
def isWS (c : Char) : Bool :=
  c = ' ' || c = '\t' || c = '\n' || c = '\r' || c = '\x0b' || c = '\x0c'

def isDigit (c : Char) : Bool := '0' ≤ c && c ≤ '9'

/-- Drop matching characters from the end of a list. -/
def dropEndWhile (p : Char → Bool) (l : List Char) : List Char :=
  (l.reverse.dropWhile p).reverse

/-- Python `s.strip(chars)`: remove characters satisfying `p` from both ends. -/
def pyStrip (p : Char → Bool) (l : List Char) : List Char :=
  dropEndWhile p (l.dropWhile p)

/-- `startsWith needle hay`: `hay` begins with `needle`. -/
def startsWith : List Char → List Char → Bool
  | [], _ => true
  | _ :: _, [] => false
  | a :: as, b :: bs => a = b && startsWith as bs

/-- Python substring test `needle in hay`. -/
def containsSub (hay needle : List Char) : Bool :=
  match hay with
  | [] => startsWith needle []
  | _ :: t => startsWith needle (hay) || containsSub t needle

/-! ## `merge_dedupe` (generate_intel.py lines 567–580)

```python
def merge_dedupe(sources: list[list], key_len: int = 20) -> list:
    seen, merged = set(), []
    for src in sources:
        for item in src:
            key = item["title"][:key_len]
            if key not in seen:
                seen.add(key)
                merged.append(item)
    merged.sort(
        key=lambda x: x.get("pub_dt") or datetime.min.replace(tzinfo=CST),
        reverse=True,
    )
    return merged
```
-/

/-- The item dictionaries built by `_make_news_item` (the social variant has
the same `title`/`pub_dt` fields that `merge_dedupe` reads; the remaining
fields are carried inertly). `pub_dt = none` models Python `None`/missing. -/
structure Item where
  title : List Char
  source : List Char
  link : List Char
  pub_dt : Option Nat
  channel : List Char
  category : List Char
deriving DecidableEq, Repr

/-- The sort key `x.get("pub_dt") or datetime.min.replace(tzinfo=CST)`:
a missing timestamp is replaced by the minimum datetime, which maps to `0`
under the order embedding (Python datetimes are always truthy, so `or` fires
exactly on `None`). -/
def sortKey (x : Item) : Nat := x.pub_dt.getD 0

/-- The dedupe loop: walk the concatenation, keep an item iff the first
`key_len` characters of its title were not seen before. -/
def dedupeKeys (key_len : Nat) : List (List Char) → List Item → List Item
  | _, [] => []
  | seen, x :: rest =>
    if x.title.take key_len ∈ seen then dedupeKeys key_len seen rest
    else x :: dedupeKeys key_len (x.title.take key_len :: seen) rest

/-- Stable descending insertion: `x` is placed before the first element whose
key is `≤ sortKey x` (so it stays after strictly-greater keys and before
equal keys coming from later positions). -/
def insertDesc (x : Item) : List Item → List Item
  | [] => [x]
  | y :: ys => if sortKey x < sortKey y then y :: insertDesc x ys else x :: y :: ys

/-- Stable sort, descending by `sortKey`.  Python's `list.sort(key=…,
reverse=True)` is a stable descending sort, and the output of a stable
descending sort is uniquely determined (equal-key elements keep their
relative order), so this insertion sort computes the same list. -/
def sortDesc : List Item → List Item
  | [] => []
  | x :: xs => insertDesc x (sortDesc xs)

/-- `merge_dedupe`: dedupe the concatenation by 20-char title prefix keeping
first occurrences, then stable-sort by timestamp descending (missing
timestamps sort as the minimum datetime). -/
def merge_dedupe (sources : List (List Item)) (key_len : Nat) : List Item :=
  sortDesc (dedupeKeys key_len [] sources.flatten)

/-! ## `classify_text` (generate_intel.py lines 24–26 and 559–564)

```python
KEYWORDS_ADJUST  = ["调价", "涨价", "提价", "降价", "价格调整", "上调", "下调"]
KEYWORDS_PROMO   = ["促销", "大促", "优惠", "折扣", "满减", "活动", "专场", "限时", "秒杀"]
KEYWORDS_FINANCE = ["财报", "业绩", "营收", "利润", "IPO", "股东", "股权", "分红", "回购", "评级"]

def classify_text(text: str) -> str:
    t = text.lower()
    if any(kw in t for kw in KEYWORDS_ADJUST):  return "adjust"
    if any(kw in t for kw in KEYWORDS_PROMO):   return "promo"
    if any(kw in t for kw in KEYWORDS_FINANCE): return "finance"
    return "general"
```
-/

def KEYWORDS_ADJUST : List (List Char) :=
  ["调价".data, "涨价".data, "提价".data, "降价".data, "价格调整".data, "上调".data, "下调".data]

def KEYWORDS_PROMO : List (List Char) :=
  ["促销".data, "大促".data, "优惠".data, "折扣".data, "满减".data, "活动".data, "专场".data,
   "限时".data, "秒杀".data]

def KEYWORDS_FINANCE : List (List Char) :=
  ["财报".data, "业绩".data, "营收".data, "利润".data, "IPO".data, "股东".data, "股权".data,
   "分红".data, "回购".data, "评级".data]

/-- The case mapping of `str.lower()` on ASCII letters. -/
def asciiLowerTable : List (Char × Char) :=
  [('A','a'), ('B','b'), ('C','c'), ('D','d'), ('E','e'), ('F','f'), ('G','g'),
   ('H','h'), ('I','i'), ('J','j'), ('K','k'), ('L','l'), ('M','m'), ('N','n'),
   ('O','o'), ('P','p'), ('Q','q'), ('R','r'), ('S','s'), ('T','t'), ('U','u'),
   ('V','v'), ('W','w'), ('X','x'), ('Y','y'), ('Z','z')]

/-- Python `str.lower()` per character, restricted to ASCII letters (every
non-ASCII character of this program's data — all CJK — is fixed by
`lower()`, as the explicit table makes checkable). -/
def pyLowerChar (c : Char) : Char :=
  ((asciiLowerTable.find? (fun p => p.1 = c)).map Prod.snd).getD c

def pyLower (l : List Char) : List Char := l.map pyLowerChar

def classify_text (text : List Char) : List Char :=
  let t := pyLower text
  if KEYWORDS_ADJUST.any (fun kw => containsSub t kw) then "adjust".data
  else if KEYWORDS_PROMO.any (fun kw => containsSub t kw) then "promo".data
  else if KEYWORDS_FINANCE.any (fun kw => containsSub t kw) then "finance".data
  else "general".data

/-! ## `parse_likes` (generate_intel.py lines 513–523)

```python
def parse_likes(s: str) -> int:
    if not s:
        return 0
    s = s.strip().replace(",", "")
    try:
        if "万" in s:
            return int(float(s.replace("万", "")) * 10000)
        return int(s)
    except ValueError:
        return 0
```

`int(str)` raises `ValueError` on malformed input; `float(str)` raises
`ValueError` on malformed input and yields `±inf`/`nan` on the literals
`inf`/`infinity`/`nan` (case-insensitive) and `±inf` on overflowing decimal
literals (e.g. `float("1e400") = inf`: CPython's `strtod` is correctly
rounded, so the result is infinite exactly when the literal's exact value
reaches the binary64 round-to-nearest-even overflow threshold
`2^1024 - 2^970`, modelled below by `Frac.isOverflow`);
`int(float)` truncates toward zero, raises `ValueError` on `nan` (caught
here) and `OverflowError` on `±inf` (NOT caught — `except ValueError` only).
The numeric-literal model covers signed decimal/exponent literals over ASCII
digits (Python additionally allows `_` digit separators and non-ASCII
digits; no claim depends on those). -/

/-- An exact (unnormalised) rational `num / den`; every `Frac` built below
has `den > 0`.  This carries the exact value of a Python float literal
(binary64 rounding of FINITE values is abstracted away — it does not affect
the sign or any concrete value appearing in the claims — while the
finite/infinite boundary is modelled exactly by `Frac.isOverflow`). -/
structure Frac where
  num : Int
  den : Nat
deriving DecidableEq, Repr

def Frac.mul (a b : Frac) : Frac := ⟨a.num * b.num, a.den * b.den⟩

/-- Scale by `10 ^ e` for an integer exponent `e` (powers are taken in `Nat`
and cast, keeping evaluation shallow). -/
def Frac.scale10 (f : Frac) (e : Int) : Frac :=
  if 0 ≤ e then ⟨f.num * ((10 ^ e.toNat : Nat) : Int), f.den⟩
  else ⟨f.num, f.den * 10 ^ (-e).toNat⟩

def Frac.neg (f : Frac) : Frac := ⟨-f.num, f.den⟩

/-- The IEEE-754 binary64 overflow threshold: under round-to-nearest-even,
an exact value of magnitude at least `2^1024 - 2^970` (the midpoint between
the largest double `2^1024 - 2^971` and `2^1024`) rounds to infinity. -/
def FLOAT_OVF : Int := ((2 ^ 1024 - 2 ^ 970 : Nat) : Int)

/-- Whether a (non-negative) parsed literal value overflows `float`:
`num / den ≥ 2^1024 - 2^970`, i.e. `float()` returns `inf` on it. -/
def Frac.isOverflow (f : Frac) : Bool := FLOAT_OVF * (f.den : Int) ≤ f.num

/-- The exact raising threshold of `int(float(s) * 10000)` for a finite
`float(s)`: the multiply `x * 10000` overflows to `±inf` (making `int`
raise `OverflowError`) iff `|x| ≥ X₀ := 7378697629483821 · 2^958`, the
smallest double at least `(2^1024 - 2^970) / 10^4`.  Since `strtod` rounds
the exact literal value `v` to nearest-even and rounding is monotone,
`|round v| ≥ X₀  ⟺  |v| > M` where `M := 14757395258967641 · 2^957` is the
midpoint between `X₀` and its (even-mantissa) predecessor — the exact tie
`|v| = M` rounds down to the even mantissa and stays finite. -/
def PROD_OVF : Int := ((14757395258967641 * 2 ^ 957 : Nat) : Int)

/-- Whether `float(s) * 10000` overflows for the literal of exact value
`num / den`: `|num / den| > M`. -/
def Frac.mulOvf (f : Frac) : Bool := PROD_OVF * (f.den : Int) < (f.num.natAbs : Int)

/-- Python `int(x)` on an exact fraction: truncation toward zero. -/
def truncFrac (f : Frac) : Int := f.num.tdiv (f.den : Int)

inductive PyFloat where
  | finite (f : Frac)
  | inf
  | neginf
  | nan
deriving DecidableEq, Repr

/-- Numeric value of a digit string, most significant first. -/
def digitsVal (l : List Char) : Nat :=
  l.foldl (fun a c => 10 * a + (c.toNat - '0'.toNat)) 0

/-- Consume one-or-more leading digits; `none` if there is no leading digit. -/
def chompDigits (l : List Char) : Option (Nat × List Char) :=
  let d := l.takeWhile isDigit
  if d.isEmpty then none else some (digitsVal d, l.drop d.length)

/-- One-or-more digits valued as a `Nat` (`none` on anything else). -/
def parseNatDigits (l : List Char) : Option Nat :=
  if l ≠ [] && l.all isDigit then some (digitsVal l) else none

/-- Python `int(s)` on an ASCII decimal string: optional surrounding
whitespace, optional sign, one-or-more digits. `none` models `ValueError`. -/
def pyInt (l : List Char) : Option Int :=
  match pyStrip isWS l with
  | [] => none
  | c :: rest =>
    if c = '+' then (parseNatDigits rest).map Int.ofNat
    else if c = '-' then (parseNatDigits rest).map fun n => -(Int.ofNat n)
    else (parseNatDigits (c :: rest)).map Int.ofNat

/-- Mantissa of a float literal, split into its maximal leading digit run
`ip` and the remainder `rest`: accepts `digits`, `digits.digits`,
`digits.` and `.digits` (at least one digit overall).  The value
`ip + frac / 10^len(frac)` is carried as the exact fraction
`(ip·10^len(frac) + frac) / 10^len(frac)`. -/
def parseMantissaAux (ip rest : List Char) : Option Frac :=
  if rest = [] then
    if ip ≠ [] then some ⟨(digitsVal ip : Int), 1⟩ else none
  else if rest.head? = some '.' then
    if rest.tail.all isDigit && (ip ≠ [] || rest.tail ≠ []) then
      some ⟨(digitsVal ip : Int) * ((10 ^ rest.tail.length : Nat) : Int)
              + (digitsVal rest.tail : Int),
            10 ^ rest.tail.length⟩
    else none
  else none

def parseMantissa (l : List Char) : Option Frac :=
  parseMantissaAux (l.takeWhile isDigit) (l.drop (l.takeWhile isDigit).length)

/-- Exponent part after `e`/`E`: optional sign, one-or-more digits. -/
def parseExp (l : List Char) : Option Int :=
  match l with
  | [] => none
  | c :: rest =>
    if c = '+' then (parseNatDigits rest).map Int.ofNat
    else if c = '-' then (parseNatDigits rest).map fun n => -(Int.ofNat n)
    else (parseNatDigits (c :: rest)).map Int.ofNat

/-- Split a list at the first `e`/`E` (mantissa, exponent-digits). -/
def splitAtE (l : List Char) : List Char × Option (List Char) :=
  match l with
  | [] => ([], none)
  | c :: rest =>
    if c = 'e' || c = 'E' then ([], some rest)
    else
      let (m, e) := splitAtE rest
      (c :: m, e)

/-- Unsigned part of Python `float(s)`: `inf`, `infinity`, `nan`
(case-insensitive) or a decimal literal with optional exponent; a decimal
literal whose exact value reaches the binary64 overflow threshold yields
`inf`, as `float("1e400")` does. -/
def pyFloatUnsigned (l : List Char) : Option PyFloat :=
  if pyLower l = "inf".data || pyLower l = "infinity".data then some .inf
  else if pyLower l = "nan".data then some .nan
  else
    match splitAtE l with
    | (m, none) =>
      (parseMantissa m).map fun f =>
        if f.isOverflow then PyFloat.inf else .finite f
    | (m, some e) =>
      (parseMantissa m).bind fun f =>
        (parseExp e).map fun ex =>
          if (f.scale10 ex).isOverflow then PyFloat.inf
          else .finite (f.scale10 ex)

def PyFloat.neg : PyFloat → PyFloat
  | .finite f => .finite f.neg
  | .inf => .neginf
  | .neginf => .inf
  | .nan => .nan

/-- Python `float(s)` (ASCII model): optional surrounding whitespace,
optional sign, then an unsigned float literal. `none` models `ValueError`. -/
def pyFloat (l : List Char) : Option PyFloat :=
  match pyStrip isWS l with
  | [] => none
  | c :: rest =>
    if c = '+' then pyFloatUnsigned rest
    else if c = '-' then (pyFloatUnsigned rest).map PyFloat.neg
    else pyFloatUnsigned (c :: rest)

/-- `s.strip().replace(",", "")` as applied by `parse_likes`. -/
def likesClean (s : List Char) : List Char :=
  (pyStrip isWS s).filter (fun c => c ≠ ',')

deriving instance DecidableEq for Except

/-- `parse_likes`.  `Except.error ()` models the uncaught `OverflowError`
raised by `int(float(...) * 10000)` when the `万`-branch float is `±inf`
(literal `inf`/`infinity` or an overflowing decimal such as `"1e400"`) or
when the finite float times `10000` overflows (`Frac.mulOvf`, e.g.
`"1e308"`); `ValueError` (malformed literal, or `int(nan)`) is caught and
yields `0`. -/
def parse_likes (s : List Char) : Except Unit Int :=
  if s = [] then .ok 0
  else if (likesClean s).contains '万' then
    match pyFloat ((likesClean s).filter (fun c => c ≠ '万')) with
    | none => .ok 0
    | some (.finite f) =>
      if f.mulOvf then .error () else .ok (truncFrac (f.mul ⟨10000, 1⟩))
    | some .nan => .ok 0
    | some .inf => .error ()
    | some .neginf => .error ()
  else
    match pyInt (likesClean s) with
    | none => .ok 0
    | some n => .ok n

/-! ## `smart_summary` (generate_intel.py lines 526–556)

```python
def smart_summary(text: str, max_len: int = 50) -> str:
    if not text:
        return ""
    text = text.strip()
    text = re.sub(r"^\d{4}年\d+月\d+日\s*[-·]\s*", "", text)
    text = re.sub(r"^\d+\s*[天小时分钟月年]+前\s*[-·]\s*", "", text)
    text = re.sub(r"[_|][^_|。！？，\n]+$", "", text)
    text = re.sub(r"([_|][^_|。！？，\n]+)+$", "", text)
    text = re.sub(r"\s*[-–—]\s*[一-龥a-zA-Z]{2,10}$", "", text)
    text = re.sub(r"\.{3,}$|…+$", "", text)
    text = text.strip("_|… \t")
    if not text:
        return ""
    if len(text) <= max_len:
        return text
    for punct in ["。", "！", "？", "；", "，", "、", ",", "."]:
        idx = text[:max_len].rfind(punct)
        if idx > max_len // 3:
            return text[: idx + 1]
    return text[:max_len] + "…"
```

Each `re.sub` is modelled by a bespoke matcher for its pattern.  All six
patterns are anchored (`^` or `$`) and deterministic (every repetition is
over a character class disjoint from what must follow), so `re.sub` removes
at most one — the leftmost — match; the `$`-anchored ones are modelled by
scanning start positions left to right and cutting at the first position
whose whole suffix matches. -/

/-- `[_|]` — the tag delimiters. -/
def isDelim (c : Char) : Bool := c = '_' || c = '|'

/-- The negated class `[^_|。！？，\n]`. -/
def isExcl (c : Char) : Bool :=
  c = '_' || c = '|' || c = '。' || c = '！' || c = '？' || c = '，' || c = '\n'

/-- `^\d{4}年\d+月\d+日\s*[-·]\s*`: remainder after the date prefix, if it
matches at the start. -/
def dateLeadRest (l : List Char) : Option (List Char) :=
  match l with
  | a :: b :: c :: d :: '年' :: r1 =>
    if isDigit a && isDigit b && isDigit c && isDigit d then
      (chompDigits r1).bind fun (_, r2) =>
      match r2 with
      | '月' :: r3 =>
        (chompDigits r3).bind fun (_, r4) =>
        match r4 with
        | '日' :: r5 =>
          match r5.dropWhile isWS with
          | x :: r7 => if x = '-' || x = '·' then some (r7.dropWhile isWS) else none
          | [] => none
        | _ => none
      | _ => none
    else none
  | _ => none

def stripDateLead (l : List Char) : List Char := (dateLeadRest l).getD l

/-- `[天小时分钟月年]` — relative-time unit characters. -/
def isUnitChar (c : Char) : Bool :=
  c = '天' || c = '小' || c = '时' || c = '分' || c = '钟' || c = '月' || c = '年'

/-- `^\d+\s*[天小时分钟月年]+前\s*[-·]\s*`: remainder after the
relative-time prefix, if it matches at the start. -/
def agoLeadRest (l : List Char) : Option (List Char) :=
  (chompDigits l).bind fun (_, r1) =>
  let r2 := r1.dropWhile isWS
  let units := r2.takeWhile isUnitChar
  if units.isEmpty then none
  else
    match r2.drop units.length with
    | '前' :: r3 =>
      match r3.dropWhile isWS with
      | x :: r5 => if x = '-' || x = '·' then some (r5.dropWhile isWS) else none
      | [] => none
    | _ => none

def stripAgoLead (l : List Char) : List Char := (agoLeadRest l).getD l

/-- Whole-suffix matcher for `[_|][^_|。！？，\n]+$`. -/
def tagOnce (l : List Char) : Bool :=
  match l with
  | c :: rest => isDelim c && !rest.isEmpty && rest.all (fun d => !isExcl d)
  | [] => false

/-- `re.sub(r"[_|][^_|。！？，\n]+$", "", text)`: cut at the leftmost start
position whose suffix fully matches (scanning left to right, as `re.sub`
does). -/
def stripTagEnd : List Char → List Char
  | [] => []
  | c :: rest => if tagOnce (c :: rest) then [] else c :: stripTagEnd rest

/-- DFA for the whole-suffix matcher of `([_|][^_|。！？，\n]+)+$`
(state 0: expect a delimiter; 1: expect a first body character;
2: inside a body — may end, continue, or start a new group). -/
def tagGroupsAux : List Char → Nat → Bool
  | [], st => st == 2
  | c :: rest, 0 => if isDelim c then tagGroupsAux rest 1 else false
  | c :: rest, 1 => if isExcl c then false else tagGroupsAux rest 2
  | c :: rest, 2 =>
    if isDelim c then tagGroupsAux rest 1
    else if isExcl c then false
    else tagGroupsAux rest 2
  | _ :: _, _ + 3 => false

/-- `re.sub(r"([_|][^_|。！？，\n]+)+$", "", text)`. -/
def stripTagsEnd : List Char → List Char
  | [] => []
  | c :: rest => if tagGroupsAux (c :: rest) 0 then [] else c :: stripTagsEnd rest

def isDash (c : Char) : Bool := c = '-' || c = '–' || c = '—'

/-- `[一-龥a-zA-Z]`. -/
def isCJKLatin (c : Char) : Bool :=
  ('一' ≤ c && c ≤ '龥') || ('a' ≤ c && c ≤ 'z') || ('A' ≤ c && c ≤ 'Z')

/-- Whole-suffix matcher for `\s*[-–—]\s*[一-龥a-zA-Z]{2,10}$`. -/
def dashSrcMatch (l : List Char) : Bool :=
  match l.dropWhile isWS with
  | c :: rest =>
    isDash c &&
      (let b := rest.dropWhile isWS
       2 ≤ b.length && b.length ≤ 10 && b.all isCJKLatin)
  | [] => false

/-- `re.sub(r"\s*[-–—]\s*[一-龥a-zA-Z]{2,10}$", "", text)`. -/
def stripDashSrcEnd : List Char → List Char
  | [] => []
  | c :: rest => if dashSrcMatch (c :: rest) then [] else c :: stripDashSrcEnd rest

/-- `re.sub(r"\.{3,}$|…+$", "", text)`: remove a trailing run of `…`, or a
trailing run of at least three `.` (the leftmost alternative that matches;
the two cases are distinguished by the last character). -/
def stripDotsEnd (l : List Char) : List Char :=
  let r := l.reverse
  if r.head? = some '…' then (r.dropWhile (fun c => c = '…')).reverse
  else if 3 ≤ (r.takeWhile (fun c => c = '.')).length then
    (r.dropWhile (fun c => c = '.')).reverse
  else l

/-- The character set of `text.strip("_|… \t")`. -/
def isStripSet (c : Char) : Bool :=
  c = '_' || c = '|' || c = '…' || c = ' ' || c = '\t'

/-- The cleanup pipeline of `smart_summary` (everything before the length
check): strip whitespace, the two leading-date patterns, the three trailing
tag/source patterns, trailing ellipses, then `strip("_|… \t")`. -/
def cleanText (text : List Char) : List Char :=
  if text = [] then []
  else
    let t := pyStrip isWS text
    let t := stripDateLead t
    let t := stripAgoLead t
    let t := stripTagEnd t
    let t := stripTagsEnd t
    let t := stripDashSrcEnd t
    let t := stripDotsEnd t
    pyStrip isStripSet t

/-- Index of the last occurrence of `c` (Python `rfind`, `none` for `-1`). -/
def rfindIdx : List Char → Char → Option Nat
  | [], _ => none
  | c :: rest, p =>
    match rfindIdx rest p with
    | some i => some (i + 1)
    | none => if c = p then some 0 else none

/-- The punctuation priority list `["。","！","？","；","，","、",",","."]`. -/
def punctList : List Char := ['。', '！', '？', '；', '，', '、', ',', '.']

/-- The truncation loop: for each punctuation mark in priority order, take
the last occurrence in the first `max_len` characters; return it if it lies
strictly past `max_len // 3`. -/
def firstGoodPunct : List Char → List Char → Nat → Option Nat
  | [], _, _ => none
  | p :: ps, w, m =>
    match rfindIdx w p with
    | some idx => if m / 3 < idx then some idx else firstGoodPunct ps w m
    | none => firstGoodPunct ps w m

def smart_summary (text : List Char) (max_len : Nat) : List Char :=
  if cleanText text = [] then []
  else if (cleanText text).length ≤ max_len then cleanText text
  else
    match firstGoodPunct punctList ((cleanText text).take max_len) max_len with
    | some idx => (cleanText text).take (idx + 1)
    | none => (cleanText text).take max_len ++ ['…']

/-! ## `Store` discount model (generate_dashboard.py lines 9–47)

```python
BASE_PRICE_PER_G = 1450
SIM_WEIGHT_G = 50

@dataclass
class Store:
    ... fx_discount: float | None; coupon_rate: float | None; ...

    def effective_discount(self) -> float:
        discount = 1.0
        if self.fx_discount:
            discount *= self.fx_discount
        if self.coupon_rate:
            discount *= (1 - self.coupon_rate)
        return discount

    def simulated_final_price(self) -> float:
        base = BASE_PRICE_PER_G * SIM_WEIGHT_G
        return base * self.effective_discount()
```

`if self.fx_discount:` is a truthiness test: it fires for every value except
`None` and `0.0`.  Floats are modelled exactly in `ℚ` (multiplication and
`1 - c` are the claims' only operations). -/

def BASE_PRICE_PER_G : ℚ := 1450
def SIM_WEIGHT_G : ℚ := 50

structure Store where
  id : List Char
  name : List Char
  city : List Char
  region : List Char
  mall : List Char
  type_tags : List (List Char)
  fx_discount : Option ℚ
  coupon_rate : Option ℚ
  promo_desc : List Char
  promo_valid_until : Option (List Char)
  restock_note : Option (List Char)
  inventory_tags : List (List Char)
  promo_source : List Char
deriving DecidableEq, Repr

def Store.effective_discount (s : Store) : ℚ :=
  let d : ℚ := 1
  let d :=
    match s.fx_discount with
    | none => d
    | some f => if f = 0 then d else d * f
  match s.coupon_rate with
  | none => d
  | some c => if c = 0 then d else d * (1 - c)

def Store.simulated_final_price (s : Store) : ℚ :=
  let base := BASE_PRICE_PER_G * SIM_WEIGHT_G
  base * s.effective_discount

/-! ## Lemmas about the sorting pass of `merge_dedupe` -/

theorem mem_insertDesc (x z : Item) (l : List Item) :
    z ∈ insertDesc x l ↔ z = x ∨ z ∈ l := by
  induction l with
  | nil => simp [insertDesc]
  | cons y ys ih =>
    simp only [insertDesc]
    split
    · simp only [List.mem_cons, ih]
      tauto
    · exact List.mem_cons

theorem insertDesc_perm (x : Item) (l : List Item) :
    List.Perm (insertDesc x l) (x :: l) := by
  induction l with
  | nil => exact List.Perm.refl _
  | cons y ys ih =>
    simp only [insertDesc]
    split
    · exact (ih.cons y).trans (List.Perm.swap x y ys)
    · exact List.Perm.refl _

theorem sortDesc_perm (l : List Item) : List.Perm (sortDesc l) l := by
  induction l with
  | nil => exact List.Perm.refl _
  | cons x xs ih => exact (insertDesc_perm x (sortDesc xs)).trans (ih.cons x)

theorem pairwise_insertDesc (x : Item) (l : List Item)
    (h : l.Pairwise (fun a b => sortKey b ≤ sortKey a)) :
    (insertDesc x l).Pairwise (fun a b => sortKey b ≤ sortKey a) := by
  induction l with
  | nil => simp [insertDesc]
  | cons y ys ih =>
    rw [List.pairwise_cons] at h
    obtain ⟨hy, hys⟩ := h
    simp only [insertDesc]
    split
    · rename_i hlt
      rw [List.pairwise_cons]
      refine ⟨?_, ih hys⟩
      intro z hz
      rcases (mem_insertDesc x z ys).mp hz with rfl | hz'
      · exact le_of_lt hlt
      · exact hy z hz'
    · rename_i hge
      push_neg at hge
      rw [List.pairwise_cons]
      refine ⟨?_, List.pairwise_cons.mpr ⟨hy, hys⟩⟩
      intro z hz
      rcases List.mem_cons.mp hz with rfl | hz'
      · exact hge
      · exact le_trans (hy z hz') hge

theorem sortDesc_sorted (l : List Item) :
    (sortDesc l).Pairwise (fun a b => sortKey b ≤ sortKey a) := by
  induction l with
  | nil => simp [sortDesc]
  | cons x xs ih => exact pairwise_insertDesc x (sortDesc xs) ih

theorem filter_insertDesc_of_neg (p : Item → Bool) (x : Item) (l : List Item)
    (hx : p x = false) : (insertDesc x l).filter p = l.filter p := by
  induction l with
  | nil => simp [insertDesc, hx]
  | cons y ys ih =>
    simp only [insertDesc]
    split
    · cases hpy : p y <;> simp [List.filter_cons, hpy, ih]
    · simp [List.filter_cons, hx]

theorem filter_insertDesc_of_pos (p : Item → Bool) (c : Nat)
    (hp : ∀ y, p y = true → sortKey y = c) (x : Item) (hx : p x = true)
    (l : List Item) : (insertDesc x l).filter p = x :: l.filter p := by
  induction l with
  | nil => simp [insertDesc, hx]
  | cons y ys ih =>
    simp only [insertDesc]
    split
    · rename_i hlt
      have hpy : p y = false := by
        cases hb : p y
        · rfl
        · rw [hp y hb, hp x hx] at hlt
          exact absurd hlt (lt_irrefl c)
      simp [List.filter_cons, hpy, ih]
    · simp [List.filter_cons, hx]

/-- The stable sort preserves the relative order of any class of elements
sharing one sort key. -/
theorem filter_sortDesc (p : Item → Bool) (c : Nat)
    (hp : ∀ y, p y = true → sortKey y = c) (l : List Item) :
    (sortDesc l).filter p = l.filter p := by
  induction l with
  | nil => rfl
  | cons x xs ih =>
    simp only [sortDesc]
    cases hx : p x
    · rw [filter_insertDesc_of_neg p x _ hx, ih, List.filter_cons, hx]
      simp
    · rw [filter_insertDesc_of_pos p c hp x hx, ih, List.filter_cons, hx]
      simp

/-! ## Lemmas about the dedupe pass of `merge_dedupe` -/

/-- Every kept item has an unseen key and is the first element of the input
with its key. -/
theorem dedupeKeys_first (k : Nat) (seen : List (List Char)) (l : List Item)
    (x : Item) (hx : x ∈ dedupeKeys k seen l) :
    x.title.take k ∉ seen ∧
      ∃ l₁ l₂, l = l₁ ++ x :: l₂ ∧ ∀ y ∈ l₁, y.title.take k ≠ x.title.take k := by
  induction l generalizing seen with
  | nil => simp [dedupeKeys] at hx
  | cons y ys ih =>
    simp only [dedupeKeys] at hx
    split at hx
    · rename_i hseen
      obtain ⟨hnot, l₁, l₂, heq, hne⟩ := ih seen hx
      refine ⟨hnot, y :: l₁, l₂, by rw [heq, List.cons_append], ?_⟩
      intro z hz
      rcases List.mem_cons.mp hz with rfl | hz'
      · intro h
        exact hnot (h ▸ hseen)
      · exact hne z hz'
    · rename_i hseen
      rcases List.mem_cons.mp hx with rfl | hx'
      · exact ⟨hseen, [], ys, rfl, by simp⟩
      · obtain ⟨hnot, l₁, l₂, heq, hne⟩ := ih _ hx'
        have hmem : x.title.take k ∉ seen := fun h => hnot (List.mem_cons_of_mem _ h)
        have hxy : y.title.take k ≠ x.title.take k := by
          intro h
          exact hnot (h ▸ List.mem_cons_self _ _)
        refine ⟨hmem, y :: l₁, l₂, by rw [heq, List.cons_append], ?_⟩
        intro z hz
        rcases List.mem_cons.mp hz with rfl | hz'
        · exact hxy
        · exact hne z hz'

/-- The dedupe pass yields pairwise-distinct keys. -/
theorem pairwise_dedupeKeys (k : Nat) (seen : List (List Char)) (l : List Item) :
    (dedupeKeys k seen l).Pairwise
      (fun a b => a.title.take k ≠ b.title.take k) := by
  induction l generalizing seen with
  | nil => simp [dedupeKeys]
  | cons y ys ih =>
    simp only [dedupeKeys]
    split
    · exact ih seen
    · rw [List.pairwise_cons]
      refine ⟨?_, ih _⟩
      intro z hz h
      have hkey := (dedupeKeys_first k _ ys z hz).1
      exact hkey (h ▸ List.mem_cons_self _ _)

/-- Every input key not already seen is represented in the dedupe output. -/
theorem dedupeKeys_covers (k : Nat) :
    ∀ (l : List Item) (seen : List (List Char)) (x : Item), x ∈ l →
      x.title.take k ∉ seen →
      ∃ y ∈ dedupeKeys k seen l, y.title.take k = x.title.take k := by
  intro l
  induction l with
  | nil =>
    intro seen x hx _
    cases hx
  | cons z zs ih =>
    intro seen x hx hs
    simp only [dedupeKeys]
    split
    · rename_i hseen
      rcases List.mem_cons.mp hx with h | hx'
      · exact absurd (h ▸ hseen) hs
      · exact ih seen x hx' hs
    · rcases List.mem_cons.mp hx with h | hx'
      · exact ⟨z, List.mem_cons_self _ _, by rw [h]⟩
      · by_cases hk : x.title.take k = z.title.take k
        · exact ⟨z, List.mem_cons_self _ _, hk.symm⟩
        · have hs' : x.title.take k ∉ z.title.take k :: seen := by
            intro h
            rcases List.mem_cons.mp h with h' | h'
            · exact hk h'
            · exact hs h'
          obtain ⟨y, hy, hyk⟩ := ih _ x hx' hs'
          exact ⟨y, List.mem_cons_of_mem _ hy, hyk⟩

/-- A list whose pairwise relation fails on any two members of a class has
at most one member of that class. -/
theorem length_filter_le_one_of_pairwise {α : Type} (R : α → α → Prop)
    (p : α → Bool) (l : List α) (h : l.Pairwise R)
    (hp : ∀ a b, p a = true → p b = true → ¬ R a b) :
    (l.filter p).length ≤ 1 := by
  induction l with
  | nil => simp
  | cons x xs ih =>
    rw [List.pairwise_cons] at h
    obtain ⟨hx, hxs⟩ := h
    cases hpx : p x
    · rw [List.filter_cons, hpx]
      exact ih hxs
    · rw [List.filter_cons, hpx]
      have hnil : xs.filter p = [] := by
        rw [List.filter_eq_nil_iff]
        intro y hy hpy
        exact hp x y hpx hpy (hx y hy)
      simp [hnil]

theorem mem_merge_dedupe (sources : List (List Item)) (k : Nat) (x : Item) :
    x ∈ merge_dedupe sources k ↔ x ∈ dedupeKeys k [] sources.flatten :=
  (sortDesc_perm _).mem_iff

/-! ## Claim C1 -/

/-- **C1** (confirmed).  For every list of input source lists, the output of
`merge_dedupe` (with the default key length 20) contains no two items whose
dedupe keys — the first 20 characters of the title — are equal, and every
output item is the first item of the concatenation (in supplied order)
bearing its key, so an item from an earlier-supplied source list wins over
any later item sharing its key. -/
theorem merge_dedupe_keys_unique_first_wins (sources : List (List Item)) :
    ((merge_dedupe sources 20).Pairwise
        (fun a b => a.title.take 20 ≠ b.title.take 20))
    ∧ ∀ x ∈ merge_dedupe sources 20,
        ∃ l₁ l₂, sources.flatten = l₁ ++ x :: l₂ ∧
          ∀ y ∈ l₁, y.title.take 20 ≠ x.title.take 20 := by
  constructor
  · have hsymm : ∀ {a b : Item},
        (fun a b : Item => a.title.take 20 ≠ b.title.take 20) a b →
        (fun a b : Item => a.title.take 20 ≠ b.title.take 20) b a :=
      fun h h' => h h'.symm
    exact ((sortDesc_perm (dedupeKeys 20 [] sources.flatten)).pairwise_iff
      hsymm).mpr (pairwise_dedupeKeys 20 [] sources.flatten)
  · intro x hx
    exact ((dedupeKeys_first 20 [] sources.flatten x
      ((mem_merge_dedupe sources 20 x).mp hx)).2)

def itemC1a : Item := ⟨"同一标题".data, "甲".data, [], some 3, [], []⟩
def itemC1b : Item := ⟨"同一标题".data, "乙".data, [], some 9, [], []⟩

/-- Witness for C1: on the two-source input `[[itemC1a], [itemC1b]]`, whose
items share the dedupe key, the kept item `itemC1a` is the first occurrence
of its key in concatenation order: the earlier source wins. -/
theorem merge_dedupe_keys_unique_first_wins_witness :
    ∃ l₁ l₂, ([[itemC1a], [itemC1b]] : List (List Item)).flatten
        = l₁ ++ itemC1a :: l₂ ∧
      ∀ y ∈ l₁, y.title.take 20 ≠ itemC1a.title.take 20 :=
  (merge_dedupe_keys_unique_first_wins [[itemC1a], [itemC1b]]).2
    itemC1a (by decide)

/-! ## Claim C2 -/

/-- **C2** (corrected).  The output of `merge_dedupe` is stably ordered by
the sort key (timestamp, with an absent timestamp replaced by the minimum
datetime, i.e. key `0`): adjacent known timestamps descend; an item with
absent timestamp appears after every item whose known timestamp is strictly
greater than the minimum datetime; and the relative order of the
absent-timestamp items is exactly their order before sorting (stability).
The original claim's stronger clause — absent-timestamp items appear after
*all* known-timestamp items — fails when a known timestamp equals the
minimum datetime (see the counterexample). -/
theorem merge_dedupe_order_spec (sources : List (List Item)) :
    ((merge_dedupe sources 20).Pairwise (fun a b => sortKey b ≤ sortKey a))
    ∧ (∀ i j (hi : i < (merge_dedupe sources 20).length)
          (hj : j < (merge_dedupe sources 20).length),
        ((merge_dedupe sources 20).get ⟨i, hi⟩).pub_dt = none →
        ∀ t, ((merge_dedupe sources 20).get ⟨j, hj⟩).pub_dt = some t →
          0 < t → j < i)
    ∧ (merge_dedupe sources 20).filter (fun x => x.pub_dt.isNone)
        = (dedupeKeys 20 [] sources.flatten).filter (fun x => x.pub_dt.isNone) := by
  refine ⟨sortDesc_sorted _, ?_, ?_⟩
  · intro i j hi hj hnone t hsome ht
    by_contra hcon
    push_neg at hcon
    have hij : i < j := by
      rcases Nat.lt_or_ge i j with h | h
      · exact h
      · exfalso
        rcases Nat.eq_or_lt_of_le h with h' | h'
        · rw [show (⟨i, hi⟩ : Fin _) = ⟨j, hj⟩ from Fin.ext h'.symm, hsome] at hnone
          cases hnone
        · exact absurd h' (Nat.not_lt.mpr hcon)
    have hsorted : (merge_dedupe sources 20).Pairwise
        (fun a b => sortKey b ≤ sortKey a) := sortDesc_sorted _
    have hp := List.pairwise_iff_get.mp hsorted ⟨i, hi⟩ ⟨j, hj⟩ hij
    rw [show sortKey ((merge_dedupe sources 20).get ⟨j, hj⟩) = t by
          simp only [sortKey, hsome, Option.getD_some],
        show sortKey ((merge_dedupe sources 20).get ⟨i, hi⟩) = 0 by
          simp only [sortKey, hnone, Option.getD_none]] at hp
    exact absurd (Nat.le_zero.mp hp) (Nat.pos_iff_ne_zero.mp ht)
  · exact filter_sortDesc _ 0
      (fun y hy => by
        cases hpd : y.pub_dt
        · simp [sortKey, hpd]
        · simp [hpd] at hy) _

def itemC2u : Item := ⟨"无时间戳".data, [], [], none, [], []⟩
def itemC2k : Item := ⟨"最小时间戳".data, [], [], some 0, [], []⟩

/-- Counterexample to C2 as stated: on `[[itemC2u, itemC2k]]`, the item with
ABSENT timestamp comes out *first*, before the item whose KNOWN timestamp is
`datetime.min.replace(tzinfo=CST)` (the sort sentinel, key `0`): both share
the sort key, and the stable sort preserves their input order.  The claim
required every absent-timestamp item to appear after all known-timestamp
items. -/
theorem merge_dedupe_order_counterexample :
    merge_dedupe [[itemC2u, itemC2k]] 20 = [itemC2u, itemC2k]
    ∧ itemC2u.pub_dt = none ∧ itemC2k.pub_dt = some 0 := by decide

def itemC2k5 : Item := ⟨"已知时间戳".data, [], [], some 5, [], []⟩

/-- Witness for C2: on `[[itemC2k5, itemC2u]]` the absent-timestamp item
(index 1) sits after the positively-timestamped item (index 0). -/
theorem merge_dedupe_order_spec_witness : (0 : Nat) < 1 :=
  (merge_dedupe_order_spec [[itemC2k5, itemC2u]]).2.1 1 0 (by decide) (by decide)
    (by decide) 5 (by decide) (by decide)

/-! ## Claim C5 -/

/-- **C5** (corrected).  `merge_dedupe` tolerates items with empty titles —
it is total and never fails on them — but it does **not** skip them: the
first empty-titled item of the concatenation is kept (empty titles yield the
empty dedupe key, which collides only with other empty titles, so at most
one empty-titled item survives).  Formally: if some input item has an empty
title then so does some output item, and at most one output item has an
empty title. -/
theorem merge_dedupe_empty_title_spec (sources : List (List Item)) :
    ((∃ x ∈ sources.flatten, x.title = []) →
      ∃ y ∈ merge_dedupe sources 20, y.title = [])
    ∧ ((merge_dedupe sources 20).filter (fun x => x.title.isEmpty)).length ≤ 1 := by
  constructor
  · rintro ⟨x, hx, hxt⟩
    obtain ⟨y, hy, hyk⟩ := dedupeKeys_covers 20 sources.flatten [] x hx
      (by simp)
    refine ⟨y, (mem_merge_dedupe sources 20 y).mpr hy, ?_⟩
    rw [hxt] at hyk
    simpa using hyk
  · refine length_filter_le_one_of_pairwise _ _ _
      (merge_dedupe_keys_unique_first_wins sources).1 ?_
    intro a b ha hb hR
    apply hR
    rw [List.isEmpty_iff.mp ha, List.isEmpty_iff.mp hb]

def itemC5e : Item := ⟨[], "某平台".data, [], none, [], []⟩

/-- Counterexample to C5 as stated: the single empty-titled item is NOT
skipped — it appears in the output.  The claim said no empty-titled item
ever appears in the output. -/
theorem merge_dedupe_empty_title_counterexample :
    merge_dedupe [[itemC5e]] 20 = [itemC5e] ∧ itemC5e.title = [] := by decide

/-- Witness for C5: applying the amended theorem on `[[itemC5e]]`. -/
theorem merge_dedupe_empty_title_spec_witness :
    ∃ y ∈ merge_dedupe [[itemC5e]] 20, y.title = [] :=
  (merge_dedupe_empty_title_spec [[itemC5e]]).1 ⟨itemC5e, by decide, rfl⟩

/-! ## Claim C3 -/

/-- The factor contributed by `if self.fx_discount: discount *= self.fx_discount`
(truthiness: `None` and `0.0` contribute nothing). -/
def fxFactor (s : Store) : ℚ :=
  match s.fx_discount with
  | none => 1
  | some f => if f = 0 then 1 else f

/-- The factor contributed by `if self.coupon_rate: discount *= (1 - self.coupon_rate)`. -/
def cpFactor (s : Store) : ℚ :=
  match s.coupon_rate with
  | none => 1
  | some c => if c = 0 then 1 else 1 - c

theorem effective_discount_eq (s : Store) :
    s.effective_discount = fxFactor s * cpFactor s := by
  unfold Store.effective_discount fxFactor cpFactor
  rcases s.fx_discount with _ | f <;> rcases s.coupon_rate with _ | c <;> simp

theorem fxFactor_pos (s : Store) (h : ∀ f, s.fx_discount = some f → 0 ≤ f) :
    0 < fxFactor s := by
  unfold fxFactor
  rcases hf : s.fx_discount with _ | f
  · norm_num
  · show (0 : ℚ) < if f = 0 then 1 else f
    split_ifs with h0
    · norm_num
    · exact lt_of_le_of_ne (h f hf) (Ne.symm h0)

theorem cpFactor_pos (s : Store) (h : ∀ c, s.coupon_rate = some c → c < 1) :
    0 < cpFactor s := by
  unfold cpFactor
  rcases hc : s.coupon_rate with _ | c
  · norm_num
  · show (0 : ℚ) < if c = 0 then 1 else 1 - c
    split_ifs with h0
    · norm_num
    · linarith [h c hc]

theorem fxFactor_le_one (s : Store)
    (h : ∀ f, s.fx_discount = some f → f = 0 ∨ (0 < f ∧ f < 1)) :
    fxFactor s ≤ 1 := by
  unfold fxFactor
  rcases hf : s.fx_discount with _ | f
  · norm_num
  · show (if f = 0 then 1 else f) ≤ (1 : ℚ)
    split_ifs with h0
    · norm_num
    · rcases h f hf with h' | h'
      · exact absurd h' h0
      · exact le_of_lt h'.2

theorem cpFactor_le_one (s : Store)
    (h : ∀ c, s.coupon_rate = some c → c = 0 ∨ (0 < c ∧ c < 1)) :
    cpFactor s ≤ 1 := by
  unfold cpFactor
  rcases hc : s.coupon_rate with _ | c
  · norm_num
  · show (if c = 0 then 1 else 1 - c) ≤ (1 : ℚ)
    split_ifs with h0
    · norm_num
    · rcases h c hc with h' | h'
      · exact absurd h' h0
      · linarith [h'.1]

/-- **C3** (corrected).  `effective_discount` is a pure function of the two
optional components following Python truthiness: a component that is `None`
or `0.0` contributes nothing; a nonzero component is honored exactly as
given, with no clamping (`fx` contributes the factor `fx`, `coupon` the
factor `1 - coupon`).  Consequently: the result is exactly `1` when both
components are absent or zero (and then `simulated_final_price` is the
unmodified base × weight = 72500); it is strictly below `1` when every
present nonzero component is a genuine discount (a value in `(0,1)`) and at
least one such component is present; and it is positive provided every
present `fx` is nonnegative and every present `coupon` is below `1` — but
NOT positive in general: `coupon_rate = 1.0` yields exactly `0` (see the
counterexample), which is what "honored as given" forces. -/
theorem effective_discount_spec :
    (∀ s : Store,
      (s.fx_discount = none ∨ s.fx_discount = some 0) →
      (s.coupon_rate = none ∨ s.coupon_rate = some 0) →
      s.effective_discount = 1 ∧ s.simulated_final_price = 72500)
    ∧ (∀ (s : Store) (f : ℚ), s.fx_discount = some f → f ≠ 0 →
        (s.coupon_rate = none ∨ s.coupon_rate = some 0) →
        s.effective_discount = f)
    ∧ (∀ (s : Store) (c : ℚ),
        (s.fx_discount = none ∨ s.fx_discount = some 0) →
        s.coupon_rate = some c → c ≠ 0 →
        s.effective_discount = 1 - c)
    ∧ (∀ (s : Store) (f c : ℚ), s.fx_discount = some f → f ≠ 0 →
        s.coupon_rate = some c → c ≠ 0 →
        s.effective_discount = f * (1 - c))
    ∧ (∀ s : Store,
        (∀ f, s.fx_discount = some f → f = 0 ∨ (0 < f ∧ f < 1)) →
        (∀ c, s.coupon_rate = some c → c = 0 ∨ (0 < c ∧ c < 1)) →
        ((∃ f, s.fx_discount = some f ∧ 0 < f ∧ f < 1) ∨
          (∃ c, s.coupon_rate = some c ∧ 0 < c ∧ c < 1)) →
        s.effective_discount < 1)
    ∧ (∀ s : Store,
        (∀ f, s.fx_discount = some f → 0 ≤ f) →
        (∀ c, s.coupon_rate = some c → c < 1) →
        0 < s.effective_discount) := by
  refine ⟨?_, ?_, ?_, ?_, ?_, ?_⟩
  · intro s hf hc
    have he : s.effective_discount = 1 := by
      rw [effective_discount_eq]
      rcases hf with hf | hf <;> rcases hc with hc | hc <;>
        simp [fxFactor, cpFactor, hf, hc]
    refine ⟨he, ?_⟩
    rw [Store.simulated_final_price, he, BASE_PRICE_PER_G, SIM_WEIGHT_G]
    norm_num
  · intro s f hf hf0 hc
    rw [effective_discount_eq]
    rcases hc with hc | hc <;>
      simp [fxFactor, cpFactor, hf, hc, hf0]
  · intro s c hf hc hc0
    rw [effective_discount_eq]
    rcases hf with hf | hf <;>
      simp [fxFactor, cpFactor, hf, hc, hc0]
  · intro s f c hf hf0 hc hc0
    rw [effective_discount_eq]
    simp [fxFactor, cpFactor, hf, hc, hf0, hc0]
  · intro s hfok hcok hgen
    rw [effective_discount_eq]
    have hfp := fxFactor_pos s (fun f hf => by
      rcases hfok f hf with h | h
      · exact le_of_eq h.symm
      · exact le_of_lt h.1)
    have hcp := cpFactor_pos s (fun c hc => by
      rcases hcok c hc with h | h
      · rw [h]; norm_num
      · exact h.2)
    have hfle := fxFactor_le_one s hfok
    have hcle := cpFactor_le_one s hcok
    rcases hgen with ⟨f, hf, hf0, hf1⟩ | ⟨c, hc, hc0, hc1⟩
    · have hlt : fxFactor s < 1 := by
        unfold fxFactor
        rw [hf]
        show (if f = 0 then 1 else f) < (1 : ℚ)
        split_ifs with h0
        · exact absurd h0 (ne_of_gt hf0)
        · exact hf1
      nlinarith
    · have hlt : cpFactor s < 1 := by
        unfold cpFactor
        rw [hc]
        show (if c = 0 then 1 else 1 - c) < (1 : ℚ)
        split_ifs with h0
        · exact absurd h0 (ne_of_gt hc0)
        · linarith
      nlinarith
  · intro s hf hc
    rw [effective_discount_eq]
    exact mul_pos (fxFactor_pos s hf) (cpFactor_pos s hc)

/-- A store with an explicit `coupon_rate` of `1.0` (100%). -/
def storeC3one : Store :=
  ⟨"c1".data, "测试门店".data, "香港".data, "香港".data, "测试商场".data,
   [], none, some 1, [], none, none, [], []⟩

/-- Counterexample to C3 as stated: a present `coupon_rate = 1.0` is honored
as `discount *= (1 - 1.0)`, so `effective_discount` returns `0`, which is
NOT a positive number — the claim's unconditional "returns a positive real
number" fails. -/
theorem effective_discount_counterexample :
    Store.effective_discount storeC3one = 0
    ∧ ¬ (0 < Store.effective_discount storeC3one) := by
  constructor
  · rw [effective_discount_eq]
    norm_num [fxFactor, cpFactor, storeC3one]
  · rw [effective_discount_eq]
    norm_num [fxFactor, cpFactor, storeC3one]

/-- A store with both discount components absent (like `hk_times_square`). -/
def storeC3none : Store :=
  ⟨"c0".data, "测试门店二".data, "香港".data, "香港".data, "测试商场二".data,
   [], none, none, [], none, none, [], []⟩

/-- A store with the Harbour City parameters `fx_discount=0.91`,
`coupon_rate=0.05`. -/
def storeC3hk : Store :=
  ⟨"hk".data, "海港城店".data, "香港".data, "香港".data, "海港城".data,
   [], some (91/100), some (1/20), [], none, none, [], []⟩

/-! ## Lemmas about substring search and lowercasing -/

theorem startsWith_map (f : Char → Char) (n : List Char)
    (hn : ∀ c ∈ n, f c = c) :
    ∀ h : List Char, startsWith n h = true → startsWith n (h.map f) = true := by
  induction n with
  | nil =>
    intro h _
    rfl
  | cons a as ih =>
    intro h hs
    cases h with
    | nil => cases hs
    | cons b bs =>
      rw [startsWith, Bool.and_eq_true, decide_eq_true_eq] at hs
      obtain ⟨rfl, hs'⟩ := hs
      rw [List.map_cons, startsWith, Bool.and_eq_true, decide_eq_true_eq]
      exact ⟨(hn a (List.mem_cons_self _ _)).symm,
        ih (fun c hc => hn c (List.mem_cons_of_mem _ hc)) bs hs'⟩

theorem containsSub_map (f : Char → Char) (n : List Char)
    (hn : ∀ c ∈ n, f c = c) :
    ∀ h : List Char, containsSub h n = true → containsSub (h.map f) n = true := by
  intro h
  induction h with
  | nil =>
    intro hc
    exact hc
  | cons b bs ih =>
    intro hc
    rw [containsSub, Bool.or_eq_true] at hc
    rw [List.map_cons, containsSub, Bool.or_eq_true]
    rcases hc with hc | hc
    · exact Or.inl (by
        have := startsWith_map f n hn (b :: bs) hc
        rwa [List.map_cons] at this)
    · exact Or.inr (ih hc)

theorem startsWith_mem (n : List Char) :
    ∀ h : List Char, startsWith n h = true → ∀ c ∈ n, c ∈ h := by
  induction n with
  | nil =>
    intro h _ c hc
    cases hc
  | cons a as ih =>
    intro h hs c hc
    cases h with
    | nil => cases hs
    | cons b bs =>
      rw [startsWith, Bool.and_eq_true, decide_eq_true_eq] at hs
      obtain ⟨rfl, hs'⟩ := hs
      rcases List.mem_cons.mp hc with rfl | hc'
      · exact List.mem_cons_self _ _
      · exact List.mem_cons_of_mem _ (ih bs hs' c hc')

theorem containsSub_mem (n : List Char) :
    ∀ h : List Char, containsSub h n = true → ∀ c ∈ n, c ∈ h := by
  intro h
  induction h with
  | nil =>
    intro hc c hcn
    cases n with
    | nil => cases hcn
    | cons a as => cases hc
  | cons b bs ih =>
    intro hc c hcn
    rw [containsSub, Bool.or_eq_true] at hc
    rcases hc with hc | hc
    · exact startsWith_mem n (b :: bs) hc c hcn
    · exact List.mem_cons_of_mem _ (ih hc c hcn)

theorem pyLowerChar_ne_upper_i : ∀ c : Char, pyLowerChar c ≠ 'I' := by
  intro c h
  unfold pyLowerChar at h
  cases hf : asciiLowerTable.find? (fun p => p.1 = c) with
  | none =>
    rw [hf] at h
    simp only [Option.map_none', Option.getD_none] at h
    subst h
    have := List.find?_eq_none.mp hf ('I', 'i') (by decide)
    simp at this
  | some pr =>
    rw [hf] at h
    simp only [Option.map_some', Option.getD_some] at h
    have hmem := List.mem_of_find?_eq_some hf
    have hall : ∀ q ∈ asciiLowerTable, q.2 ≠ 'I' := by decide
    exact hall pr hmem h

/-- The uppercase literal `"IPO"` is never a substring of a lowercased
string: no character lowercases to `'I'`. -/
theorem no_upper_ipo (text : List Char) :
    containsSub (pyLower text) "IPO".data = false := by
  cases hc : containsSub (pyLower text) "IPO".data
  · rfl
  · exfalso
    have hI : 'I' ∈ pyLower text :=
      containsSub_mem "IPO".data (pyLower text) hc 'I' (by decide)
    obtain ⟨c, _, hc'⟩ := List.mem_map.mp hI
    exact pyLowerChar_ne_upper_i c hc'

/-- The adjust keywords contain no ASCII letters, so lowercasing fixes every
character of each of them. -/
theorem adjust_kw_fixed :
    ∀ kw ∈ KEYWORDS_ADJUST, ∀ c ∈ kw, pyLowerChar c = c := by decide

/-! ## Lemmas about `parse_likes` and its numeric parsers -/

theorem pyStrip_subset (p : Char → Bool) (l : List Char) :
    ∀ c ∈ pyStrip p l, c ∈ l := by
  intro c hc
  unfold pyStrip dropEndWhile at hc
  rw [List.mem_reverse] at hc
  have h1 : c ∈ (l.dropWhile p).reverse := (List.dropWhile_sublist _).subset hc
  rw [List.mem_reverse] at h1
  exact (List.dropWhile_sublist _).subset h1

theorem likesClean_subset (s : List Char) : ∀ c ∈ likesClean s, c ∈ s := by
  intro c hc
  unfold likesClean at hc
  exact pyStrip_subset _ _ c (List.mem_of_mem_filter hc)

theorem pyInt_nonneg (l : List Char) (hneg : '-' ∉ l) :
    ∀ n, pyInt l = some n → 0 ≤ n := by
  intro n h
  unfold pyInt at h
  cases hl : pyStrip isWS l with
  | nil =>
    simp only [hl] at h
    exact Option.noConfusion h
  | cons c rest =>
    simp only [hl] at h
    have hcmem : c ∈ l := pyStrip_subset isWS l c (hl ▸ List.mem_cons_self c rest)
    have hcne : c ≠ '-' := fun he => hneg (he ▸ hcmem)
    by_cases hplus : c = '+'
    · rw [if_pos hplus] at h
      obtain ⟨m, _, rfl⟩ := Option.map_eq_some'.mp h
      exact Int.ofNat_nonneg m
    · rw [if_neg hplus, if_neg hcne] at h
      obtain ⟨m, _, rfl⟩ := Option.map_eq_some'.mp h
      exact Int.ofNat_nonneg m

theorem parseMantissaAux_nonneg (ip rest : List Char) (f : Frac)
    (h : parseMantissaAux ip rest = some f) : 0 ≤ f.num := by
  unfold parseMantissaAux at h
  split_ifs at h <;>
    first
      | (exact Option.noConfusion h)
      | (obtain rfl := (Option.some.inj h).symm
         positivity)

theorem parseMantissa_nonneg (l : List Char) (f : Frac)
    (h : parseMantissa l = some f) : 0 ≤ f.num :=
  parseMantissaAux_nonneg _ _ f h

theorem scale10_nonneg (f : Frac) (e : Int) (h : 0 ≤ f.num) :
    0 ≤ (f.scale10 e).num := by
  unfold Frac.scale10
  split_ifs
  · exact mul_nonneg h (Int.natCast_nonneg _)
  · exact h

theorem pyFloatUnsigned_finite_nonneg (l : List Char) (f : Frac)
    (h : pyFloatUnsigned l = some (.finite f)) : 0 ≤ f.num := by
  unfold pyFloatUnsigned at h
  split_ifs at h
  · exact PyFloat.noConfusion (Option.some.inj h)
  · exact PyFloat.noConfusion (Option.some.inj h)
  · cases hse : splitAtE l with
    | mk m e =>
      rw [hse] at h
      cases e with
      | none =>
        simp only [] at h
        obtain ⟨f', hf', heq⟩ := Option.map_eq_some'.mp h
        by_cases hovf : f'.isOverflow = true
        · rw [if_pos hovf] at heq
          exact PyFloat.noConfusion heq
        · rw [if_neg hovf] at heq
          obtain rfl : f' = f := by
            cases heq
            rfl
          exact parseMantissa_nonneg m _ hf'
      | some el =>
        simp only [] at h
        obtain ⟨f', hf', h2⟩ := Option.bind_eq_some.mp h
        obtain ⟨ex, _, heq⟩ := Option.map_eq_some'.mp h2
        by_cases hovf : (f'.scale10 ex).isOverflow = true
        · rw [if_pos hovf] at heq
          exact PyFloat.noConfusion heq
        · rw [if_neg hovf] at heq
          obtain rfl : f'.scale10 ex = f := by
            cases heq
            rfl
          exact scale10_nonneg f' ex (parseMantissa_nonneg m _ hf')

theorem pyFloat_finite_nonneg (l : List Char) (hneg : '-' ∉ l) (f : Frac)
    (h : pyFloat l = some (.finite f)) : 0 ≤ f.num := by
  unfold pyFloat at h
  cases hl : pyStrip isWS l with
  | nil =>
    simp only [hl] at h
    exact Option.noConfusion h
  | cons c rest =>
    simp only [hl] at h
    have hcmem : c ∈ l := pyStrip_subset isWS l c (hl ▸ List.mem_cons_self c rest)
    have hcne : c ≠ '-' := fun he => hneg (he ▸ hcmem)
    by_cases hplus : c = '+'
    · rw [if_pos hplus] at h
      exact pyFloatUnsigned_finite_nonneg _ _ h
    · rw [if_neg hplus, if_neg hcne] at h
      exact pyFloatUnsigned_finite_nonneg _ _ h

theorem truncFrac_nonneg (f : Frac) (h : 0 ≤ f.num) : 0 ≤ truncFrac f :=
  Int.tdiv_nonneg h (Int.ofNat_nonneg f.den)

/-! ## Claim C4 -/

/-- **C4** (corrected).  `parse_likes` meets its vectors
(`"8.9万" ↦ 89000`, `"475" ↦ 475`, `"" ↦ 0`, `"abc" ↦ 0`), returns `0` on
empty or unparseable input, and every value it returns on an input without
a `'-'` character is non-negative — but on inputs carrying a minus sign the
returned integer can be negative (`int("-5") = -5`; see the
counterexample), so the unconditional "returns a non-negative integer"
fails. -/
theorem parse_likes_spec :
    (∀ (s : List Char) (n : Int), '-' ∉ s → parse_likes s = .ok n → 0 ≤ n)
    ∧ parse_likes [] = .ok 0
    ∧ (∀ s : List Char, s ≠ [] → (likesClean s).contains '万' = false →
        pyInt (likesClean s) = none → parse_likes s = .ok 0)
    ∧ (∀ s : List Char, s ≠ [] → (likesClean s).contains '万' = true →
        pyFloat ((likesClean s).filter (fun c => c ≠ '万')) = none →
        parse_likes s = .ok 0)
    ∧ parse_likes "8.9万".data = .ok 89000
    ∧ parse_likes "475".data = .ok 475
    ∧ parse_likes "abc".data = .ok 0 := by
  refine ⟨?_, by decide, ?_, ?_, by decide, by decide, by decide⟩
  · intro s n hneg hok
    unfold parse_likes at hok
    by_cases hs : s = []
    · rw [if_pos hs] at hok
      obtain rfl := (Except.ok.inj hok).symm
      decide
    · rw [if_neg hs] at hok
      have hnegc : '-' ∉ likesClean s := fun hm => hneg (likesClean_subset s _ hm)
      cases hwan : (likesClean s).contains '万'
      · rw [if_neg (by rw [hwan]; exact Bool.false_ne_true)] at hok
        cases hint : pyInt (likesClean s) with
        | none =>
          simp only [hint] at hok
          obtain rfl := (Except.ok.inj hok).symm
          decide
        | some m =>
          simp only [hint] at hok
          obtain rfl := (Except.ok.inj hok).symm
          exact pyInt_nonneg _ hnegc _ hint
      · rw [if_pos hwan] at hok
        have hnegf : '-' ∉ (likesClean s).filter (fun c => c ≠ '万') :=
          fun hm => hnegc (List.mem_of_mem_filter hm)
        cases hpf : pyFloat ((likesClean s).filter (fun c => c ≠ '万')) with
        | none =>
          simp only [hpf] at hok
          obtain rfl := (Except.ok.inj hok).symm
          decide
        | some v =>
          simp only [hpf] at hok
          cases v with
          | finite f =>
            simp only [] at hok
            by_cases hovf : f.mulOvf = true
            · rw [if_pos hovf] at hok
              exact Except.noConfusion hok
            · rw [if_neg hovf] at hok
              obtain rfl := (Except.ok.inj hok).symm
              refine truncFrac_nonneg _ ?_
              have hf := pyFloat_finite_nonneg _ hnegf f hpf
              show 0 ≤ f.num * (10000 : Int)
              positivity
          | inf => cases hok
          | neginf => cases hok
          | nan =>
            simp only [] at hok
            obtain rfl := (Except.ok.inj hok).symm
            decide
  · intro s hs hwan hint
    unfold parse_likes
    rw [if_neg hs, if_neg (by rw [hwan]; exact Bool.false_ne_true)]
    simp only [hint]
  · intro s hs hwan hpf
    unfold parse_likes
    rw [if_neg hs, if_pos hwan]
    simp only [hpf]

/-- Counterexample to C4 as stated: `parse_likes("-5")` returns `-5`, a
negative integer. -/
theorem parse_likes_counterexample :
    parse_likes "-5".data = .ok (-5) ∧ (-5 : Int) < 0 := by decide

/-- Witness for C4: the minus-free input `"475"` yields a non-negative
value. -/
theorem parse_likes_spec_witness : (0 : Int) ≤ 475 :=
  parse_likes_spec.1 "475".data 475 (by decide) (by decide)

/-! ## Claim C9 -/

/-- The exact condition under which `parse_likes` raises: a non-empty input
whose cleaned form contains `'万'` and whose numeric part parses to an
infinite float, or to a finite float whose product with `10000` overflows
(`Frac.mulOvf`) — then `int(float(...) * 10000)` raises `OverflowError`,
which the `except ValueError` clause does not catch. -/
def likesOverflow (s : List Char) : Bool :=
  !s.isEmpty && (likesClean s).contains '万' &&
    (match pyFloat ((likesClean s).filter (fun c => c ≠ '万')) with
     | some (PyFloat.finite f) => f.mulOvf
     | some PyFloat.inf => true
     | some PyFloat.neginf => true
     | _ => false)

/-- **C9** (corrected).  `smart_summary` is total and recovers a fully
stripped-away text by returning the empty string; `parse_likes` recovers
every `ValueError` (malformed literal, `int(nan)`) by returning `0`, but it
does NOT recover the `OverflowError` raised when the `万`-branch float is
infinite (literal `inf`/`infinity` or an overflowing decimal like
`"1e400"`) or when the finite float times `10000` overflows (like
`"1e308"`) — it returns without raising exactly on the non-overflow
inputs. -/
theorem parse_likes_smart_summary_recover :
    (∀ s : List Char, (∃ n, parse_likes s = .ok n) ↔ likesOverflow s = false)
    ∧ ∀ (t : List Char) (m : Nat), cleanText t = [] → smart_summary t m = [] := by
  constructor
  · intro s
    by_cases hs : s = []
    · subst hs
      constructor
      · intro _
        decide
      · intro _
        exact ⟨0, rfl⟩
    · obtain ⟨c, cs, rfl⟩ := List.exists_cons_of_ne_nil hs
      unfold parse_likes likesOverflow
      simp only [List.isEmpty_cons, Bool.not_false, Bool.true_and, reduceCtorEq,
        if_false]
      cases hwan : (likesClean (c :: cs)).contains '万'
      · simp only [Bool.false_eq_true, if_false, Bool.false_and]
        cases hint : pyInt (likesClean (c :: cs)) <;> simp
      · simp only [if_true, Bool.true_and]
        cases hpf : pyFloat ((likesClean (c :: cs)).filter (fun x => x ≠ '万')) with
        | none => simp
        | some v =>
          cases v with
          | finite f =>
            by_cases hovf : f.mulOvf = true
            · simp [hovf]
            · simp [hovf]
          | inf => simp
          | neginf => simp
          | nan => simp
  · intro t m h
    unfold smart_summary
    rw [if_pos h]

/-- Counterexample to C9 as stated: `parse_likes` raises an uncaught
`OverflowError` on `"inf万"` (infinite literal), on `"1e400万"` (decimal
literal overflowing `float`), and on `"1e308万"` (finite float whose
product with `10000` overflows). -/
theorem parse_likes_raises_counterexample :
    parse_likes "inf万".data = .error ()
    ∧ parse_likes "1e400万".data = .error ()
    ∧ parse_likes "1e308万".data = .error () := by decide

/-- Witness for C9: `"8.9万"` is not an overflow input and parses without
raising; a pure-ellipsis text is fully stripped and summarises to `""`. -/
theorem parse_likes_smart_summary_recover_witness :
    (∃ n, parse_likes "8.9万".data = .ok n) ∧ smart_summary "…".data 50 = [] :=
  ⟨(parse_likes_smart_summary_recover.1 "8.9万".data).mpr (by decide),
   parse_likes_smart_summary_recover.2 "…".data 50 (by decide)⟩

/-! ## Claim C6 -/

/-- **C6** (confirmed).  `classify_text` satisfies the four test vectors,
and — because keyword membership is tested in the fixed order adjust →
promo → finance with `general` as fallback — any string containing both an
adjust keyword and a promo keyword classifies as `adjust`. -/
theorem classify_text_spec :
    classify_text "老铺黄金调价通知".data = "adjust".data
    ∧ classify_text "满减优惠活动".data = "promo".data
    ∧ classify_text "Q3财报发布".data = "finance".data
    ∧ classify_text "随便聊聊".data = "general".data
    ∧ ∀ text : List Char,
        (∃ ka ∈ KEYWORDS_ADJUST, containsSub text ka = true) →
        (∃ kp ∈ KEYWORDS_PROMO, containsSub text kp = true) →
        classify_text text = "adjust".data := by
  refine ⟨by decide, by decide, by decide, by decide, ?_⟩
  rintro text ⟨ka, hka, hsub⟩ _
  have hlow : containsSub (pyLower text) ka = true :=
    containsSub_map pyLowerChar ka (adjust_kw_fixed ka hka) text hsub
  have hany : KEYWORDS_ADJUST.any (fun kw => containsSub (pyLower text) kw) = true :=
    List.any_eq_true.mpr ⟨ka, hka, hlow⟩
  unfold classify_text
  simp [hany]

/-- Witness for C6: `"调价促销"` contains the adjust keyword `"调价"` and
the promo keyword `"促销"`, and classifies as `adjust`. -/
theorem classify_text_spec_witness :
    classify_text "调价促销".data = "adjust".data :=
  classify_text_spec.2.2.2.2 "调价促销".data
    ⟨"调价".data, by decide, by decide⟩ ⟨"促销".data, by decide, by decide⟩

/-! ## Claim C10 -/

/-- **C10** (confirmed).  `classify_text` lowercases its input before the
membership tests while `KEYWORDS_FINANCE` holds the uppercase literal
`"IPO"`, so that keyword can never match: `"公司IPO上市"` classifies as
`general`, no lowercased input contains `"IPO"`, and whenever the result is
`finance` some finance keyword other than `"IPO"` matched. -/
theorem classify_text_ipo_unreachable :
    classify_text "公司IPO上市".data = "general".data
    ∧ (∀ text : List Char, containsSub (pyLower text) "IPO".data = false)
    ∧ ∀ text : List Char, classify_text text = "finance".data →
        ∃ kw ∈ KEYWORDS_FINANCE, kw ≠ "IPO".data
          ∧ containsSub (pyLower text) kw = true := by
  refine ⟨by decide, no_upper_ipo, ?_⟩
  intro text hfin
  unfold classify_text at hfin
  by_cases h1 : KEYWORDS_ADJUST.any (fun kw => containsSub (pyLower text) kw) = true
  · simp only [h1, if_true] at hfin
    exact absurd hfin (by decide)
  · simp only [h1, if_false, Bool.not_eq_true] at hfin
    rw [if_neg (by simp [h1])] at hfin
    by_cases h2 : KEYWORDS_PROMO.any (fun kw => containsSub (pyLower text) kw) = true
    · rw [if_pos h2] at hfin
      exact absurd hfin (by decide)
    · rw [if_neg h2] at hfin
      by_cases h3 : KEYWORDS_FINANCE.any (fun kw => containsSub (pyLower text) kw) = true
      · obtain ⟨kw, hkw, hsub⟩ := List.any_eq_true.mp h3
        refine ⟨kw, hkw, ?_, hsub⟩
        rintro rfl
        rw [no_upper_ipo text] at hsub
        cases hsub
      · rw [if_neg h3] at hfin
        exact absurd hfin (by decide)

/-- Witness for C10: `"财报"` classifies as `finance` via a finance keyword
other than `"IPO"`. -/
theorem classify_text_ipo_unreachable_witness :
    ∃ kw ∈ KEYWORDS_FINANCE, kw ≠ "IPO".data
      ∧ containsSub (pyLower "财报".data) kw = true :=
  classify_text_ipo_unreachable.2.2 "财报".data (by decide)

/-- Witness for C3: both components absent gives exactly `1` and the
unmodified base price; the genuine Harbour City discounts give a value
strictly below `1`. -/
theorem effective_discount_spec_witness :
    Store.effective_discount storeC3none = 1
    ∧ Store.simulated_final_price storeC3none = 72500
    ∧ Store.effective_discount storeC3hk < 1 := by
  refine ⟨(effective_discount_spec.1 storeC3none (Or.inl rfl) (Or.inl rfl)).1,
    (effective_discount_spec.1 storeC3none (Or.inl rfl) (Or.inl rfl)).2, ?_⟩
  refine effective_discount_spec.2.2.2.2.1 storeC3hk ?_ ?_ ?_
  · intro f hf
    right
    have hf' : (91 / 100 : ℚ) = f := Option.some.inj hf
    rw [← hf']
    norm_num
  · intro c hc
    right
    have hc' : (1 / 20 : ℚ) = c := Option.some.inj hc
    rw [← hc']
    norm_num
  · exact Or.inl ⟨91/100, rfl, by norm_num, by norm_num⟩

/-! ## Claim C7 -/

/-- **C7** (confirmed).  `smart_summary` on the given vector strips the
leading date prefix `"2025年3月2日 - "` and the trailing `"_品牌_市场"`
tags, returning exactly `"老铺黄金涨价通知"`. -/
theorem smart_summary_vector :
    smart_summary "2025年3月2日 - 老铺黄金涨价通知_品牌_市场".data 50
      = "老铺黄金涨价通知".data := by decide

/-! ## Claim C8 -/

theorem rfindIdx_lt_length (l : List Char) (c : Char) :
    ∀ i, rfindIdx l c = some i → i < l.length := by
  induction l with
  | nil =>
    intro i h
    cases h
  | cons x xs ih =>
    intro i h
    unfold rfindIdx at h
    cases hr : rfindIdx xs c with
    | some j =>
      rw [hr] at h
      obtain rfl := (Option.some.inj h).symm
      exact Nat.succ_lt_succ (ih j hr)
    | none =>
      rw [hr] at h
      split_ifs at h
      obtain rfl := (Option.some.inj h).symm
      exact Nat.succ_pos _

theorem firstGoodPunct_some (ps w : List Char) (m : Nat) :
    ∀ idx, firstGoodPunct ps w m = some idx →
      ∃ p ∈ ps, rfindIdx w p = some idx ∧ m / 3 < idx := by
  induction ps with
  | nil =>
    intro idx h
    cases h
  | cons p ps ih =>
    intro idx h
    unfold firstGoodPunct at h
    cases hr : rfindIdx w p with
    | some j =>
      simp only [hr] at h
      split_ifs at h with hthr
      · obtain rfl := (Option.some.inj h).symm
        exact ⟨p, List.mem_cons_self _ _, hr, hthr⟩
      · obtain ⟨p', hp', hfind, hlt⟩ := ih idx h
        exact ⟨p', List.mem_cons_of_mem _ hp', hfind, hlt⟩
    | none =>
      simp only [hr] at h
      obtain ⟨p', hp', hfind, hlt⟩ := ih idx h
      exact ⟨p', List.mem_cons_of_mem _ hp', hfind, hlt⟩

theorem firstGoodPunct_none (ps w : List Char) (m : Nat)
    (h : firstGoodPunct ps w m = none) :
    ∀ p ∈ ps, ∀ idx, rfindIdx w p = some idx → idx ≤ m / 3 := by
  induction ps with
  | nil =>
    intro p hp
    cases hp
  | cons p' ps ih =>
    intro p hp idx hfind
    unfold firstGoodPunct at h
    cases hr : rfindIdx w p' with
    | some j =>
      simp only [hr] at h
      split_ifs at h with hthr
      rcases List.mem_cons.mp hp with rfl | hp'
      · rw [hfind] at hr
        obtain rfl := Option.some.inj hr
        exact Nat.le_of_not_lt hthr
      · exact ih h p hp' idx hfind
    | none =>
      simp only [hr] at h
      rcases List.mem_cons.mp hp with rfl | hp'
      · rw [hfind] at hr
        exact Option.noConfusion hr
      · exact ih h p hp' idx hfind

/-- **C8** (corrected).  For every text and positive budget, the result of
`smart_summary` is no longer than the budget except in the hard-truncation
case, where it is the budget-length prefix of the cleaned text plus an
appended ellipsis.  When the cleaned text exceeds the budget, the cut is
made at `last_occurrence + 1` of the FIRST punctuation mark, in the fixed
priority order `。！？；，、,.`, whose last occurrence in the budget window
lies strictly past one third of the budget — not at the last
sentence/clause punctuation of the window overall (see the counterexample)
— and if no mark qualifies, the text is hard-truncated at the budget with
an ellipsis appended. -/
theorem smart_summary_spec (text : List Char) (max_len : Nat)
    (hpos : 0 < max_len) :
    ((smart_summary text max_len).length ≤ max_len
      ∨ smart_summary text max_len = (cleanText text).take max_len ++ ['…'])
    ∧ (max_len < (cleanText text).length →
        (∃ p ∈ punctList, ∃ idx,
            rfindIdx ((cleanText text).take max_len) p = some idx
            ∧ max_len / 3 < idx
            ∧ smart_summary text max_len = (cleanText text).take (idx + 1))
        ∨ ((∀ p ∈ punctList, ∀ idx,
              rfindIdx ((cleanText text).take max_len) p = some idx →
                idx ≤ max_len / 3)
            ∧ smart_summary text max_len
                = (cleanText text).take max_len ++ ['…'])) := by
  unfold smart_summary
  by_cases ht : cleanText text = []
  · rw [if_pos ht]
    constructor
    · left
      simp
    · intro hlt
      rw [ht] at hlt
      simp at hlt
  · rw [if_neg ht]
    by_cases hlen : (cleanText text).length ≤ max_len
    · rw [if_pos hlen]
      constructor
      · left
        exact hlen
      · intro hlt
        omega
    · rw [if_neg hlen]
      cases hfg : firstGoodPunct punctList ((cleanText text).take max_len) max_len with
      | some idx =>
        have hidx : idx < ((cleanText text).take max_len).length := by
          obtain ⟨p, _, hfind, _⟩ := firstGoodPunct_some _ _ _ idx hfg
          exact rfindIdx_lt_length _ p idx hfind
        have hidx' : idx + 1 ≤ max_len := by
          rw [List.length_take] at hidx
          omega
        constructor
        · left
          show ((cleanText text).take (idx + 1)).length ≤ max_len
          rw [List.length_take]
          omega
        · intro _
          left
          obtain ⟨p, hp, hfind, hthr⟩ := firstGoodPunct_some _ _ _ idx hfg
          exact ⟨p, hp, idx, hfind, hthr, rfl⟩
      | none =>
        constructor
        · right
          rfl
        · intro _
          right
          exact ⟨firstGoodPunct_none _ _ _ hfg, rfl⟩

def textC8 : List Char := "aaaa。aa，abc".data

/-- Counterexample to C8 as stated: with budget `9`, the cleaned text of
`textC8` is itself and exceeds the budget; the LAST clause-terminating
punctuation in the budget window past one third of the budget is the `，`
at index `7`, so the claim demands the cut `take 8`, but `smart_summary`
cuts at the lower-priority-beating `。` (index 4), returning `"aaaa。"` —
punctuation priority order wins over position. -/
theorem smart_summary_counterexample :
    cleanText textC8 = textC8
    ∧ 9 < textC8.length
    ∧ rfindIdx (textC8.take 9) '，' = some 7
    ∧ 9 / 3 < 7
    ∧ (textC8.take 9).drop 8 = ['a']
    ∧ smart_summary textC8 9 = "aaaa。".data
    ∧ smart_summary textC8 9 ≠ textC8.take 8 := by decide

def textC8w : List Char := "bbbbbbbbbb".data

/-- Witness for C8: applying the theorem at `textC8w` with budget `5`. -/
theorem smart_summary_spec_witness :
    (smart_summary textC8w 5).length ≤ 5
    ∨ smart_summary textC8w 5 = (cleanText textC8w).take 5 ++ ['…'] :=
  (smart_summary_spec textC8w 5 (by decide)).1

end LpLongmao
